import Mathlib

set_option maxRecDepth 8192

/-!
# Verification of the `serve` HTTP file server

A shallow embedding of the Go package `serve` (files `serve.go` and its
extended variant), which serves a directory tree over HTTP: `GET` returns a
file's contents or an HTML listing, `POST` (extended variant) streams a zip
archive of selected entries.

Path strings are modelled with Unix `path/filepath` semantics (`/` is the
separator, no volume names): `goClean`, `goJoin`, `goBase`, `goRel` below
follow the algorithms of Go's `filepath.Clean`, `filepath.Join`,
`filepath.Base` and `filepath.Rel`.  The filesystem is modelled as an
in-memory tree (`FSNode`); directory entries are an ordered association
list, the order being the one the filesystem enumeration returns.  `os.Open`
failures (missing path, permission) and `ReadDir` failures are modelled by
`readable`/`listable` flags on nodes; paths are resolved in the tree by
`lookup`, with a `..` segment that would climb above the modelled root
resolving to nothing.
-/

namespace Serve

/-- A path segment, as a list of characters. -/
abbrev Seg := List Char

/-- Split a character list on `'/'`, like `strings.Split(s, "/")`:
`splitSegs "a/b" = [a, b]`, `splitSegs "" = [""]`, `splitSegs "/" = ["", ""]`. -/
def splitSegs : List Char → List Seg
  | [] => [[]]
  | c :: rest =>
    if c = '/' then [] :: splitSegs rest
    else
      match splitSegs rest with
      | s :: ss => (c :: s) :: ss
      | [] => [[c]]

/-- Join segments with `'/'` between them. -/
def joinPath : List Seg → List Char
  | [] => []
  | [s] => s
  | s :: rest => s ++ '/' :: joinPath rest

/-- Whether a path string is rooted (starts with `'/'`). -/
def isRooted (p : String) : Bool := p.data.head? == some '/'

/-- The `..` segment. -/
def dotdot : Seg := ['.', '.']

/-- The element-processing loop of Go `filepath.Clean` (Unix): push plain
segments on the stack, skip empty and `.` segments, and for `..` pop a
poppable segment, or append `..` when not rooted, or drop it when rooted.
Returns the final stack (in reverse order of the output). -/
def cleanAux (rooted : Bool) : List Seg → List Seg → List Seg
  | stack, [] => stack
  | stack, s :: rest =>
    if s = [] ∨ s = ['.'] then cleanAux rooted stack rest
    else if s = dotdot then
      match stack with
      | t :: stack' =>
        if t = dotdot then cleanAux rooted (s :: t :: stack') rest
        else cleanAux rooted stack' rest
      | [] => if rooted then cleanAux rooted [] rest else cleanAux rooted [s] rest
    else cleanAux rooted (s :: stack) rest

/-- The cleaned segments of a path, in order. -/
def goCleanSegs (p : String) : List Seg :=
  (cleanAux (isRooted p) [] (splitSegs p.data)).reverse

/-- Print a rooted/relative path from its cleaned segments, the way
`filepath.Clean` lays out its output (`"."` for an empty relative path,
`"/"`-led for rooted paths). -/
def segsToPath (rooted : Bool) (ss : List Seg) : String :=
  if rooted then String.mk ('/' :: joinPath ss)
  else if ss = [] then "." else String.mk (joinPath ss)

/-- Go `filepath.Clean` (Unix semantics). -/
def goClean (p : String) : String :=
  if p = "" then "." else segsToPath (isRooted p) (goCleanSegs p)

/-- Go `filepath.Join` restricted to two arguments (Unix semantics):
skip a leading empty element, then `Clean` the `"/"`-joined rest. -/
def goJoin (a b : String) : String :=
  if a = "" then (if b = "" then "" else goClean b)
  else goClean (a ++ "/" ++ b)

/-- Go `filepath.Base` (Unix semantics): `"."` for the empty path, `"/"`
for an all-slash path, otherwise the part after the last slash once
trailing slashes are removed. -/
def goBase (p : String) : String :=
  if p = "" then "."
  else
    let q := (p.data.reverse.dropWhile (· = '/')).reverse
    if q = [] then "/"
    else String.mk (q.reverse.takeWhile (· ≠ '/')).reverse

/-- Length of the longest common prefix of two segment lists. -/
def commonLen : List Seg → List Seg → Nat
  | a :: as, b :: bs => if a = b then commonLen as bs + 1 else 0
  | _, _ => 0

/-- The element list Go's `filepath.Rel` loop walks over, for an
already-`Clean`ed (or emptied) path: nothing for `""` and `"/"`, the
slash-split segments otherwise (a leading slash contributes no element
here; `goRel` compares rootedness separately, as the Go code does). -/
def relSegs (p : String) : List Seg :=
  match p.data with
  | [] => []
  | c :: rest =>
    if c = '/' then (if rest = [] then [] else splitSegs rest)
    else splitSegs (c :: rest)

/-- Go `filepath.Rel` (Unix semantics): `Clean` both paths, answer `"."`
on equality, fail on mixed rootedness, drop the common leading elements,
fail when the first remaining base element is `..`, else climb with one
`..` per remaining base element and descend into the remaining target
elements.  `none` models the `error` return. -/
def goRel (base targ : String) : Option String :=
  let b := goClean base
  let t := goClean targ
  if t = b then some "."
  else
    let b' := if b = "." then "" else b
    if isRooted b' != isRooted t then none
    else
      let bs := relSegs b'
      let ts := relSegs t
      let k := commonLen bs ts
      let bs' := bs.drop k
      let ts' := ts.drop k
      if bs'.head? = some dotdot then none
      else if bs' = [] then some (String.mk (joinPath ts'))
      else some (String.mk (joinPath (List.replicate bs'.length dotdot ++ ts')))

/-- `dirname` from the source: the base name of the archive directory,
with `"."` and `"/"` replaced by `"root"`. -/
def dirname (dir : String) : String :=
  let base := goBase dir
  if base = "." ∨ base = "/" then "root" else base

/-- A modification time, the fields Go's layout `"2006-01-02 15:04:05"`
prints. -/
structure MTime where
  year : Nat
  month : Nat
  day : Nat
  hour : Nat
  minute : Nat
  second : Nat
deriving DecidableEq, Repr

/-- Zero-pad a number to two digits, as Go's `"01".."05"` layout fields do. -/
def pad2 (n : Nat) : String := if n < 10 then "0" ++ toString n else toString n

/-- Zero-pad a number to four digits, as Go's `"2006"` layout field does. -/
def pad4 (n : Nat) : String :=
  if n < 10 then "000" ++ toString n
  else if n < 100 then "00" ++ toString n
  else if n < 1000 then "0" ++ toString n
  else toString n

/-- `ModTime().Format("2006-01-02 15:04:05")`. -/
def formatMTime (t : MTime) : String :=
  pad4 t.year ++ "-" ++ pad2 t.month ++ "-" ++ pad2 t.day ++ " " ++
    pad2 t.hour ++ ":" ++ pad2 t.minute ++ ":" ++ pad2 t.second

/-- A filesystem node.  `readable` models whether `os.Open` on the node
succeeds, `listable` whether `ioutil.ReadDir` on an opened directory
succeeds.  Directory entries are ordered the way the filesystem
enumeration returns them. -/
inductive FSNode where
  | file (readable : Bool) (size : Int) (mtime : MTime) (content : String)
  | dir (readable : Bool) (listable : Bool) (entries : List (String × FSNode))

/-- Whether `os.Open` on the node succeeds. -/
def FSNode.readable : FSNode → Bool
  | .file r _ _ _ => r
  | .dir r _ _ => r

/-- Whether the node is a directory (`FileInfo.IsDir`). -/
def FSNode.isDir : FSNode → Bool
  | .file _ _ _ _ => false
  | .dir _ _ _ => true

/-- First entry with the given name in a directory listing. -/
def findEntry (name : String) : List (String × FSNode) → Option FSNode
  | [] => none
  | (n, c) :: rest => if n = name then some c else findEntry name rest

/-- Walk a segment list down the tree.  A name that is not an entry of the
current directory — including a `..` segment, which would leave the
modelled tree — resolves to nothing. -/
def walk : FSNode → List Seg → Option FSNode
  | n, [] => some n
  | .file _ _ _ _, _ :: _ => none
  | .dir _ _ es, s :: rest =>
    match findEntry (String.mk s) es with
    | none => none
    | some c => walk c rest

/-- Resolve a path string against the world tree: clean it and walk its
segments from the root. -/
def lookup (world : FSNode) (p : String) : Option FSNode :=
  walk world (goCleanSegs p)

/-- The error outcomes the handlers distinguish only as non-`nil` Go
`error` values. -/
inductive GoErr where
  | notExist
  | permission
  | readDirFail
  | relFail
  | writeFail
  | formFail
deriving DecidableEq, Repr

/-- A zip entry: the path passed to `zip.Writer.Create` and the bytes
copied into it. -/
abbrev ZipEntry := String × String

/-! ## Archive builder (`archive` / `addToArchive` of the extended variant)

`addToArchive(zw, dir, path)` computes `Rel(dir, path)`, opens `path`, and
for a directory recurses into each child at `Join(path, name)` in listing
order, while for a file it creates the zip entry `Rel(dir, path)`.  Since
the names `ReadDir` returns never contain a separator, re-opening
`Join(path, name)` retrieves exactly the child node, so the recursion
below is structural on the node once the starting path is resolved
(`addToArchive` does that single resolution). -/

mutual

/-- The recursion of `addToArchive` on an already-opened node at `path`. -/
def addNode (dir path : String) : FSNode → Except GoErr (List ZipEntry)
  | .file r _ _ content =>
    match goRel dir path with
    | none => .error .relFail
    | some rel =>
      if r then .ok [(rel, content)] else .error .permission
  | .dir r l es =>
    match goRel dir path with
    | none => .error .relFail
    | some _ =>
      if r then
        if l then addEntries dir path es else .error .readDirFail
      else .error .permission

/-- The `for _, fi := range fis` loop of `addToArchive`: children in
listing order, aborting on the first error. -/
def addEntries (dir path : String) : List (String × FSNode) → Except GoErr (List ZipEntry)
  | [] => .ok []
  | (n, c) :: rest =>
    match addNode dir (goJoin path n) c with
    | .error e => .error e
    | .ok zs =>
      match addEntries dir path rest with
      | .error e => .error e
      | .ok zs' => .ok (zs ++ zs')

end

/-- `addToArchive(zw, dir, path)`: resolve and open `path`, then recurse. -/
def addToArchive (world : FSNode) (dir path : String) : Except GoErr (List ZipEntry) :=
  match lookup world path with
  | none => .error .notExist
  | some node => addNode dir path node

/-- The `for _, name := range fileNames` loop of `archive`. -/
def archiveNames (world : FSNode) (dir : String) : List String → Except GoErr (List ZipEntry)
  | [] => .ok []
  | name :: rest =>
    match addToArchive world dir (goJoin dir name) with
    | .error e => .error e
    | .ok zs =>
      match archiveNames world dir rest with
      | .error e => .error e
      | .ok zs' => .ok (zs ++ zs')

/-- `archive(w, dir, filenames)`: with no selected names archive the
directory itself, otherwise each selected name joined onto the directory,
in order.  The result is the sequence of zip entries written to the
stream. -/
def archive (world : FSNode) (dir : String) (filenames : List String) :
    Except GoErr (List ZipEntry) :=
  if filenames = [] then addToArchive world dir dir
  else archiveNames world dir filenames

/-! ## Listing renderer (`serveDir` and the `listTemplate` of each variant)

The templates are `text/template` layouts with no escaping: execution
emits the literal text with `{{.Path}}`, `{{ .Name }}`, `{{ .Size }}`,
`{{ .ModTime }}` substituted, the `{{range .Files}}` body once per entry
in order, and the `{{if not .IsDir}}` bodies only for non-directories.
The strings below are those literal pieces byte for byte (tabs and
newlines included; `\x7b`/`\x7d` are the CSS braces). -/

/-- What `serveDir` computes per entry: display name, link path
(`filepath.Join` of the request path and the name), size, formatted
modification time, directory flag. -/
structure ListingEntry where
  name : String
  size : Int
  mtime : MTime
  isDir : Bool
deriving DecidableEq, Repr

/-- The `file` row datum `serveDir` builds from an `os.FileInfo`. -/
def infoOf (name : String) : FSNode → ListingEntry
  | .file _ sz t _ => ⟨name, sz, t, false⟩
  | .dir _ _ _ => ⟨name, 0, ⟨0, 0, 0, 0, 0, 0⟩, true⟩

/-- The template text of `serve.go` before the `{{range .Files}}` body,
with the request path substituted for both `{{.Path}}` occurrences. -/
def listHeader (p : String) : String :=
  "<!DOCTYPE html>\n<html lang=\"en\">\n<head>\n    <meta charset=\"UTF-8\">\n    <meta name=\"viewport\" content=\"width=device-width, initial-scale=1.0\">\n    <link rel=\"icon\" href=data:, />\n    <title>Index of "
  ++ p ++
  "</title>\n    <style>\n\t\t* \x7b font-family: monospace; \x7d\n\t\tbody \x7b display: flex; flex-direction: column; align-items: center; \x7d\n\t\tth \x7b text-align: left; \x7d\n\t\tth:before \x7b content: ''; display: block; min-width: 75px; \x7d\n    </style>\n</head>\n<body>\n\t<h1>Index of "
  ++ p ++
  "</h1>\n\t<table>\n\t\t<tr>\n\t\t\t<th>Name</th>\n\t\t\t<th>Size</th>\n\t\t\t<th>Last modified</th>\n\t\t</tr>\n\t"

/-- The `<td>{{if not .IsDir}} {{ .Size }} {{end}}</td>` cell content:
empty for a directory, the size between single spaces otherwise. -/
def sizeCell (e : ListingEntry) : String :=
  if e.isDir then "" else " " ++ toString e.size ++ " "

/-- The `<td>{{if not .IsDir}} {{ .ModTime }} {{end}}</td>` cell content. -/
def timeCell (e : ListingEntry) : String :=
  if e.isDir then "" else " " ++ formatMTime e.mtime ++ " "

/-- One iteration of the `{{range .Files}}` body of `serve.go`'s
template: the anchor row for the entry, whose link path is
`filepath.Join(path, f.Name())`. -/
def entryRow (p : String) (e : ListingEntry) : String :=
  "\n\t\t<tr>\n\t\t\t<td><a href=\"" ++ goJoin p e.name ++ "\">" ++ e.name
  ++ "</a></td>\n\t\t\t<td>" ++ sizeCell e ++ "</td>\n\t\t\t<td>" ++ timeCell e
  ++ "</td>\n\t\t</tr>\n\t"

/-- The template text of `serve.go` after `{{end}}`. -/
def listFooter : String := "\n\t</table>\n</body>\n</html>"

/-- The `{{range .Files}}` iteration over the entries, in listing order. -/
def entryRows (p : String) : List ListingEntry → String
  | [] => ""
  | e :: rest => entryRow p e ++ entryRows p rest

/-- `serveDir` of `serve.go`: execute `listTemplate` on the request path
and the entry data, producing the HTML page text. -/
def serveDir (p : String) (es : List ListingEntry) : String :=
  listHeader p ++ entryRows p es ++ listFooter

/-- The extended variant's template text before the `{{range .Files}}`
body (checkbox form layout). -/
def listHeaderExt (p : String) : String :=
  "<!DOCTYPE html>\n<html lang=\"en\">\n<head>\n    <meta charset=\"UTF-8\">\n    <meta name=\"viewport\" content=\"width=device-width, initial-scale=1.0\">\n    <link rel=\"icon\" href=data:, />\n    <title>Index of "
  ++ p ++
  "</title>\n    <style>\n\t\t* \x7b font-family: monospace; \x7d\n\t\tbody \x7b display: flex; flex-direction: column; align-items: center; \x7d\n\t\tth \x7b text-align: left; \x7d\n\t\tth:not(:first-child):before \x7b content: ''; display: block; min-width: 75px; \x7d\n\t\ttable \x7b margin-bottom: 16px; \x7d\n    </style>\n</head>\n<body>\n\t<h1>Index of "
  ++ p ++
  "</h1>\n\t<form method=\"POST\">\n\t\t<table>\n\t\t\t<tr>\n\t\t\t\t<th />\n\t\t\t\t<th>Name</th>\n\t\t\t\t<th>Size</th>\n\t\t\t\t<th>Last modified</th>\n\t\t\t</tr>\n\t\t"

/-- One iteration of the extended template's `{{range .Files}}` body:
checkbox cell plus the anchor row. -/
def entryRowExt (p : String) (e : ListingEntry) : String :=
  "\n\t\t\t<tr>\n\t\t\t\t<td><input type=\"checkbox\" name=\"files\" value=\"" ++ e.name
  ++ "\" /></td>\n\t\t\t\t<td><a href=\"" ++ goJoin p e.name ++ "\">" ++ e.name
  ++ "</a></td>\n\t\t\t\t<td>" ++ sizeCell e ++ "</td>\n\t\t\t\t<td>" ++ timeCell e
  ++ "</td>\n\t\t\t</tr>\n\t\t"

/-- The extended template text after `{{end}}`. -/
def listFooterExt : String :=
  "\n\t\t</table>\n\n\t\t<input type=\"submit\" value=\"Download zip\" />\n\t</form>\n</body>\n</html>"

/-- The extended `{{range .Files}}` iteration. -/
def entryRowsExt (p : String) : List ListingEntry → String
  | [] => ""
  | e :: rest => entryRowExt p e ++ entryRowsExt p rest

/-- `serveDir` of the extended variant. -/
def serveDirExt (p : String) (es : List ListingEntry) : String :=
  listHeaderExt p ++ entryRowsExt p es ++ listFooterExt

/-! ## Request handler -/

/-- The `app` configuration: serve directory, quiet flag, listen address
(the latter two do not influence any response). -/
structure App where
  dir : String
  quiet : Bool
  addr : String

/-- One HTTP request, as the handler sees it.  `files` is `r.Form["files"]`
after a successful `ParseForm`; `formFails` models `ParseForm` returning
an error; `writerFails` models writes to the `ResponseWriter` failing. -/
structure Request where
  method : String
  urlPath : String
  files : List String
  formFails : Bool
  writerFails : Bool

/-- The observable response: status code, headers in the order set, body
text, and the zip entries streamed (empty unless a `POST` archive was
written). -/
structure Response where
  status : Nat
  headers : List (String × String)
  body : String
  zip : List ZipEntry
deriving Repr

/-- `http.Error(w, msg, code)`: keep the already-set headers, add
`Content-Type` and `X-Content-Type-Options`, respond `code` with the
message and a trailing newline (`fmt.Fprintln`). -/
def httpError (hdrs : List (String × String)) (msg : String) (code : Nat) : Response :=
  ⟨code,
   hdrs ++ [("Content-Type", "text/plain; charset=utf-8"),
            ("X-Content-Type-Options", "nosniff")],
   msg ++ "\n", []⟩

/-- A Go error's text, as `fmt.Sprintf("%v", err)` would render it. -/
def goErrText : GoErr → String
  | .notExist => "no such file or directory"
  | .permission => "permission denied"
  | .readDirFail => "readdirent: input/output error"
  | .relFail => "Rel: can't make the path relative to the base"
  | .writeFail => "write: broken pipe"
  | .formFail => "invalid URL escape"

/-- `handleGet`, identical in both variants except for the template used:
clean the URL path, join it onto the serve directory, open the result;
stream a file's contents (a write failure is returned), or render the
directory listing (`serveDir`'s return value is discarded, so the
directory branch always returns `nil` once `ReadDir` succeeded). -/
def handleGetWith (render : String → List ListingEntry → String)
    (appDir : String) (world : FSNode) (urlPath : String) (writerFails : Bool) :
    Except GoErr String :=
  let up := goClean urlPath
  let dirPath := goJoin appDir up
  match lookup world dirPath with
  | none => .error .notExist
  | some n =>
    if n.readable then
      match n with
      | .file _ _ _ content => if writerFails then .error .writeFail else .ok content
      | .dir _ l es =>
        if l then .ok (render up (es.map fun e => infoOf e.1 e.2))
        else .error .readDirFail
    else .error .permission

/-- `handleGet` of `serve.go`. -/
def handleGet (appDir : String) (world : FSNode) (urlPath : String)
    (writerFails : Bool) : Except GoErr String :=
  handleGetWith serveDir appDir world urlPath writerFails

/-- `handleGet` of the extended variant. -/
def handleGetExt (appDir : String) (world : FSNode) (urlPath : String)
    (writerFails : Bool) : Except GoErr String :=
  handleGetWith serveDirExt appDir world urlPath writerFails

/-- `handlePost` of the extended variant: parse the form, resolve the
base directory from the URL path, set `Content-Disposition` from
`dirname(dir)`, then run `archive`.  Returns the headers it set (set
before `archive` runs, hence present even when archiving fails) and the
archive outcome. -/
def handlePost (appDir : String) (world : FSNode) (req : Request) :
    List (String × String) × Except GoErr (List ZipEntry) :=
  if req.formFails then ([], .error .formFail)
  else
    let dir := goJoin appDir (goClean req.urlPath)
    ([("Content-Disposition", "attachment; filename=\"" ++ dirname dir ++ ".zip\"")],
     archive world dir req.files)

/-- The request handler of the extended variant: set
`Cache-Control: no-store`, then dispatch on the method; any `handleGet`
error becomes `404 File not found`, any `handlePost` error becomes a 500
embedding the error text, any other method 405. -/
def handler (app : App) (world : FSNode) (req : Request) : Response :=
  let hdrs := [("Cache-Control", "no-store")]
  if req.method = "GET" then
    match handleGetExt app.dir world req.urlPath req.writerFails with
    | .ok body => ⟨200, hdrs, body, []⟩
    | .error _ => httpError hdrs "File not found" 404
  else if req.method = "POST" then
    match handlePost app.dir world req with
    | (ph, .ok zs) => ⟨200, hdrs ++ ph, "", zs⟩
    | (ph, .error e) => httpError (hdrs ++ ph) ("Error: " ++ goErrText e) 500
  else httpError hdrs "Method not allowed" 405

/-- The request handler of `serve.go`: only `GET` is served, every other
method gets 405. -/
def handlerBasic (app : App) (world : FSNode) (req : Request) : Response :=
  let hdrs := [("Cache-Control", "no-store")]
  if req.method = "GET" then
    match handleGet app.dir world req.urlPath req.writerFails with
    | .ok body => ⟨200, hdrs, body, []⟩
    | .error _ => httpError hdrs "File not found" 404
  else httpError hdrs "Method not allowed" 405

/-! ## Specification-side notions

These define, in the spec's terms, which files lie under a directory and
under which relative paths, independently of the path-string plumbing the
archive builder uses. -/

/-- A name a real directory enumeration can return: non-empty, not a dot
entry, and free of the separator. -/
def simpleName (s : String) : Bool :=
  s != "" && s != "." && s != ".." && !(s.data.contains '/')

mutual

/-- A node on which every filesystem operation the walk performs
succeeds, and whose directory listings carry only real entry names. -/
def goodNode : FSNode → Bool
  | .file r _ _ _ => r
  | .dir r l es => r && l && goodEntries es

/-- `goodNode` for every entry of a listing, names included. -/
def goodEntries : List (String × FSNode) → Bool
  | [] => true
  | (n, c) :: rest => simpleName n && goodNode c && goodEntries rest

end

mutual

/-- Every file transitively contained in a node, as (name chain from the
node, content), in depth-first listing order. -/
def filesUnder : FSNode → List (List String × String)
  | .file _ _ _ content => [([], content)]
  | .dir _ _ es => entriesFiles es

/-- `filesUnder` across a listing, in listing order. -/
def entriesFiles : List (String × FSNode) → List (List String × String)
  | [] => []
  | (n, c) :: rest =>
    (filesUnder c).map (fun q => (n :: q.1, q.2)) ++ entriesFiles rest

end

/-- A name chain printed as a `/`-separated relative path. -/
def pathOfNames : List String → String
  | [] => ""
  | [n] => n
  | n :: rest => n ++ "/" ++ pathOfNames rest

/-- The zip entries the spec expects for a whole directory: every file
transitively contained in it, under its relative path. -/
def relFiles (n : FSNode) : List ZipEntry :=
  (filesUnder n).map fun q => (pathOfNames q.1, q.2)

/-- The zip entries the spec expects for one selected top-level entry:
the named child, recursively when a directory, each file under the
name-led relative path. -/
def namedFiles (es : List (String × FSNode)) (name : String) : List ZipEntry :=
  match findEntry name es with
  | none => []
  | some c => (filesUnder c).map fun q => (pathOfNames (name :: q.1), q.2)

/-- The two lines of `handleGet`/`handlePost` that map a request URL path
to a filesystem path: `filepath.Join(app.dir, filepath.Clean(r.URL.Path))`. -/
def resolvePath (appDir urlPath : String) : String :=
  goJoin appDir (goClean urlPath)

/-- Whether a raw path string has a `..` element. -/
def hasDotDotSeg (p : String) : Bool := (splitSegs p.data).contains dotdot

/-- A path lies within the root when it is the root itself or extends it
below a separator. -/
def isWithin (root p : String) : Prop :=
  p = root ∨ ∃ rest, p = root ++ "/" ++ rest

/-! ## Concrete worlds used to instantiate the theorems -/

/-- A fixed modification time. -/
def mt0 : MTime := ⟨2020, 1, 2, 3, 4, 5⟩

/-- The served tree of the archive round-trip test: files `asdf` and
`qwer`. -/
def wTest : FSNode :=
  .dir true true
    [("asdf", .file true 9 mt0 "content-A"),
     ("qwer", .file true 9 mt0 "content-B")]

/-- A world with a base directory `top/data` and a sibling file
`top/secret.txt` outside it. -/
def wSecret : FSNode :=
  .dir true true
    [("top", .dir true true
        [("data", .dir true true [("f.txt", .file true 1 mt0 "F")]),
         ("secret.txt", .file true 6 mt0 "SECRET")])]

/-- The default app configuration (serve the current directory). -/
def appDot : App := ⟨".", false, "localhost:9876"⟩

/-- Concatenation of a list of strings, in order. -/
def strConcat : List String → String
  | [] => ""
  | s :: rest => s ++ strConcat rest

/-- A world whose directory enumeration returns entries in
non-alphabetical order (`b.txt` before `a.txt`). -/
def wRev : FSNode :=
  .dir true true
    [("b.txt", .file true 1 mt0 "B"),
     ("a.txt", .file true 1 mt0 "A")]

/-- Sequence archive-step results in order: concatenate the zip entries
left to right, stopping at the first error. -/
def exceptConcat : List (Except GoErr (List ZipEntry)) → Except GoErr (List ZipEntry)
  | [] => .ok []
  | r :: rest =>
    match r with
    | .error e => .error e
    | .ok zs =>
      match exceptConcat rest with
      | .error e => .error e
      | .ok zs' => .ok (zs ++ zs')

/-! ## Canonical path forms

`filepath.Clean` outputs, split at separators, have a recognisable shape:
every segment is non-empty, not `.`, separator-free, and `..` segments
can only lead, and only in a relative path.  The predicates below state
that shape; the lemmas further down show `Clean` produces it, keeps it,
and that `Join` and `Rel` behave structurally on it. -/

/-- A segment a `Clean`ed path can contain beyond leading `..`s. -/
def plainSeg (s : Seg) : Bool :=
  s != [] && s != ['.'] && s != dotdot && !(s.contains '/')

/-- All segments plain. -/
def allPlain (ss : List Seg) : Bool := ss.all plainSeg

/-- Some leading `..` segments followed by plain segments. -/
def cleanShape : List Seg → Bool
  | [] => true
  | s :: rest => if s = dotdot then cleanShape rest else allPlain (s :: rest)

/-- The shape of `goCleanSegs` output: for a rooted path no `..` survives,
for a relative one `..`s can only lead. -/
def cleanForm : Bool → List Seg → Bool
  | true, ds => allPlain ds
  | false, ds => cleanShape ds

/-- The zip entries the spec expects for a list of selected names, in
order. -/
def selectedFiles (es : List (String × FSNode)) : List String → List ZipEntry
  | [] => []
  | n :: rest => namedFiles es n ++ selectedFiles es rest

/-! ## Theorems -/

/-- C6: every HTTP response produced by the request handler — either
variant, every method and path, success or failure — carries the header
`Cache-Control: no-store` (it is set before the method dispatch and no
branch removes it). -/
theorem every_response_no_store (app : App) (world : FSNode) (req : Request) :
    ("Cache-Control", "no-store") ∈ (handler app world req).headers ∧
    ("Cache-Control", "no-store") ∈ (handlerBasic app world req).headers := by
  constructor
  · by_cases hg : req.method = "GET"
    · rcases h : handleGetExt app.dir world req.urlPath req.writerFails with e | b <;>
        simp [handler, hg, h, httpError]
    · by_cases hp : req.method = "POST"
      · rcases h : handlePost app.dir world req with ⟨ph, e | zs⟩ <;>
          simp [handler, hg, hp, h, httpError]
      · simp [handler, hg, hp, httpError]
  · by_cases hg : req.method = "GET"
    · rcases h : handleGet app.dir world req.urlPath req.writerFails with e | b <;>
        simp [handlerBasic, hg, h, httpError]
    · simp [handlerBasic, hg, httpError]

/-- C7: any request whose method is not `GET` gets status 405 from the
basic handler (`serve.go` serves only `GET`, so this covers `POST` too),
and when the method is also not `POST` the extended handler answers 405
as well, regardless of path. -/
theorem unsupported_method_405 (app : App) (world : FSNode) (req : Request)
    (hg : req.method ≠ "GET") :
    (handlerBasic app world req).status = 405 ∧
    (req.method ≠ "POST" → (handler app world req).status = 405) := by
  constructor
  · simp [handlerBasic, hg, httpError]
  · intro hp
    simp [handler, hg, hp, httpError]

/-- Witness for C7: a `PUT` request gets 405 from both handlers, and a
`POST` request gets 405 from the basic handler. -/
theorem unsupported_method_405_witness :
    (handlerBasic appDot wTest ⟨"PUT", "/", [], false, false⟩).status = 405 ∧
    (handler appDot wTest ⟨"PUT", "/", [], false, false⟩).status = 405 ∧
    (handlerBasic appDot wTest ⟨"POST", "/", [], false, false⟩).status = 405 :=
  ⟨(unsupported_method_405 appDot wTest ⟨"PUT", "/", [], false, false⟩
      (by decide)).1,
   (unsupported_method_405 appDot wTest ⟨"PUT", "/", [], false, false⟩
      (by decide)).2 (by decide),
   (unsupported_method_405 appDot wTest ⟨"POST", "/", [], false, false⟩
      (by decide)).1⟩

/-- C5: whenever `handleGet` returns an error — a missing path, an
unopenable one, or any other I/O failure it surfaces — the handler
responds 404 with the generic `File not found` message (plus the newline
`http.Error` appends), in both variants. -/
theorem get_failure_is_404 (app : App) (world : FSNode) (req : Request)
    (e e' : GoErr) (hm : req.method = "GET")
    (hext : handleGetExt app.dir world req.urlPath req.writerFails = .error e)
    (hbas : handleGet app.dir world req.urlPath req.writerFails = .error e') :
    (handler app world req).status = 404 ∧
    (handler app world req).body = "File not found\n" ∧
    (handlerBasic app world req).status = 404 ∧
    (handlerBasic app world req).body = "File not found\n" := by
  refine ⟨?_, ?_, ?_, ?_⟩ <;>
    simp [handler, handlerBasic, hm, hext, hbas, httpError]

/-- Witness for C5: `GET /nope` against the test tree does not resolve,
and both handlers answer `404 File not found`. -/
theorem get_failure_is_404_witness :
    (handler appDot wTest ⟨"GET", "/nope", [], false, false⟩).status = 404 ∧
    (handler appDot wTest ⟨"GET", "/nope", [], false, false⟩).body = "File not found\n" ∧
    (handlerBasic appDot wTest ⟨"GET", "/nope", [], false, false⟩).status = 404 ∧
    (handlerBasic appDot wTest ⟨"GET", "/nope", [], false, false⟩).body = "File not found\n" :=
  get_failure_is_404 appDot wTest ⟨"GET", "/nope", [], false, false⟩
    .notExist .notExist rfl rfl rfl

/-- C9: `handleGet` ignores `serveDir`'s return value, so once a
directory's entries were read successfully it returns `nil` even when
rendering/writing the page fails (`req.writerFails` is arbitrary here,
while for a file the `io.Copy` error IS returned); hence the handler
responds 200, not 404. -/
theorem dir_render_error_discarded (app : App) (world : FSNode) (req : Request)
    (es : List (String × FSNode)) (hm : req.method = "GET")
    (hl : lookup world (resolvePath app.dir req.urlPath) = some (.dir true true es)) :
    handleGetExt app.dir world req.urlPath req.writerFails =
      .ok (serveDirExt (goClean req.urlPath) (es.map fun e => infoOf e.1 e.2)) ∧
    (handler app world req).status = 200 ∧
    handleGet app.dir world req.urlPath req.writerFails =
      .ok (serveDir (goClean req.urlPath) (es.map fun e => infoOf e.1 e.2)) ∧
    (handlerBasic app world req).status = 200 := by
  rw [resolvePath] at hl
  have h1 : handleGetExt app.dir world req.urlPath req.writerFails =
      .ok (serveDirExt (goClean req.urlPath) (es.map fun e => infoOf e.1 e.2)) := by
    simp [handleGetExt, handleGetWith, hl, FSNode.readable]
  have h2 : handleGet app.dir world req.urlPath req.writerFails =
      .ok (serveDir (goClean req.urlPath) (es.map fun e => infoOf e.1 e.2)) := by
    simp [handleGet, handleGetWith, hl, FSNode.readable]
  exact ⟨h1, by simp [handler, hm, h1], h2, by simp [handlerBasic, hm, h2]⟩

/-- Witness for C9: `GET /` on the test tree lists the root directory and
returns 200 even though every write to the response fails. -/
theorem dir_render_error_discarded_witness :
    handleGetExt "." wTest "/" true =
      .ok (serveDirExt (goClean "/")
        (([("asdf", FSNode.file true 9 mt0 "content-A"),
           ("qwer", FSNode.file true 9 mt0 "content-B")]).map fun e => infoOf e.1 e.2)) ∧
    (handler appDot wTest ⟨"GET", "/", [], false, true⟩).status = 200 := by
  have h := dir_render_error_discarded appDot wTest ⟨"GET", "/", [], false, true⟩
    [("asdf", .file true 9 mt0 "content-A"), ("qwer", .file true 9 mt0 "content-B")]
    rfl rfl
  exact ⟨h.1, h.2.1⟩

/-- C4: every `POST` request that gets past form parsing carries a
`Content-Disposition` header naming `dirname` of the resolved base
directory — the directory's own base name, or `root` when that base name
is `.` or `/` — with `.zip` appended; in particular, with the default
serve directory `.`, path `/mydir` yields `mydir.zip` and `/` or `.`
yield `root.zip`. -/
theorem post_content_disposition (app : App) (world : FSNode) (req : Request)
    (hm : req.method = "POST") (hf : req.formFails = false) :
    ("Content-Disposition",
        "attachment; filename=\"" ++ dirname (resolvePath app.dir req.urlPath) ++ ".zip\"")
      ∈ (handler app world req).headers ∧
    dirname (resolvePath "." "/mydir") = "mydir" ∧
    dirname (resolvePath "." "/") = "root" ∧
    dirname (resolvePath "." ".") = "root" := by
  refine ⟨?_, by decide, by decide, by decide⟩
  rcases ha : archive world (goJoin app.dir (goClean req.urlPath)) req.files with e | zs <;>
    simp [handler, hm, handlePost, hf, ha, httpError, resolvePath]

/-- Witness for C4: `POST /mydir` (with an empty tree, where archiving
fails but the header was already set) carries
`attachment; filename="mydir.zip"`. -/
theorem post_content_disposition_witness :
    ("Content-Disposition", "attachment; filename=\"mydir.zip\"")
      ∈ (handler appDot wTest ⟨"POST", "/mydir", [], false, false⟩).headers ∧
    dirname (resolvePath "." "/mydir") = "mydir" := by
  have h := post_content_disposition appDot wTest ⟨"POST", "/mydir", [], false, false⟩
    rfl rfl
  exact ⟨h.1, h.2.1⟩

/-- C3: the path resolver (`filepath.Join(app.dir, filepath.Clean(path))`)
normalizes purely syntactically and never checks the result against the
serve root: the URL path `../../x`, whose raw segments contain `..`,
resolves against root `serve` to `../x`, which is not the root and does
not lie below it. -/
theorem resolver_escapes_root :
    hasDotDotSeg "../../x" = true ∧
    resolvePath "serve" "../../x" = "../x" ∧
    ¬ isWithin "serve" (resolvePath "serve" "../../x") := by
  refine ⟨by decide, by decide, ?_⟩
  have hres : resolvePath "serve" "../../x" = "../x" := by decide
  rw [hres]
  rintro (h | ⟨rest, h⟩)
  · exact absurd h (by decide)
  · have h2 : (some '.' : Option Char) = some 's' :=
      congrArg (fun s => s.data.head?) h
    simp at h2

/-- C10: selected names from the form are joined onto the base directory
with no validation: `POST /top/data` selecting `../secret.txt` produces a
zip whose single entry is stored under a path beginning with `../` and
whose content is that of `top/secret.txt`, a file that does not lie
within the base directory `top/data`. -/
theorem selected_name_escapes_base :
    (handlePost "." wSecret ⟨"POST", "/top/data", ["../secret.txt"], false, false⟩).2
      = .ok [("../secret.txt", "SECRET")] ∧
    ("../secret.txt" : String).take 3 = "../" ∧
    lookup wSecret "top/secret.txt" = some (.file true 6 mt0 "SECRET") ∧
    ¬ isWithin "top/data" "top/secret.txt" := by
  refine ⟨rfl, by decide, rfl, ?_⟩
  rintro (h | ⟨rest, h⟩)
  · exact absurd h (by decide)
  · have h2 : ("top/secre" : String).data = ("top/data/" : String).data :=
      congrArg (fun s => s.data.take 9) h
    simp at h2

/-- The `{{range .Files}}` output around any listed entry: rows for the
entries before it, its own row, rows for the entries after it. -/
theorem entryRows_split (p : String) (e : ListingEntry) :
    ∀ es : List ListingEntry, e ∈ es →
      ∃ u v, entryRows p es = u ++ entryRow p e ++ v := by
  intro es he
  induction es with
  | nil => cases he
  | cons hd tl ih =>
    rcases List.mem_cons.mp he with rfl | hm
    · exact ⟨"", entryRows p tl, by
        apply String.ext; simp [entryRows, String.data_append]⟩
    · rcases ih hm with ⟨u, v, huv⟩
      exact ⟨entryRow p hd ++ u, v, by
        apply String.ext; simp [entryRows, huv, String.data_append]⟩

/-- C8: the listing rendered for path `p` is an HTML document titled
`Index of p`; for each listed entry it contains an anchor whose link is
`filepath.Join(p, name)`; a file entry's row shows its size and its
modification time formatted `YYYY-MM-DD HH:MM:SS` (via `formatMTime`),
while a directory entry's size and time cells are empty. -/
theorem listing_document (p : String) (es : List ListingEntry)
    (e : ListingEntry) (he : e ∈ es) :
    (∃ a b, serveDir p es = a ++ ("<title>Index of " ++ p ++ "</title>") ++ b) ∧
    (∃ a b, serveDir p es =
      a ++ ("<a href=\"" ++ goJoin p e.name ++ "\">" ++ e.name ++ "</a>") ++ b) ∧
    (e.isDir = false → ∃ a b, serveDir p es =
      a ++ ("<td> " ++ toString e.size ++ " </td>\n\t\t\t<td> "
            ++ formatMTime e.mtime ++ " </td>") ++ b) ∧
    (e.isDir = true → ∃ a b, serveDir p es =
      a ++ ("<td></td>\n\t\t\t<td></td>") ++ b) := by
  rcases entryRows_split p e es he with ⟨u, v, huv⟩
  refine ⟨?_, ?_, ?_, ?_⟩
  · exact ⟨"<!DOCTYPE html>\n<html lang=\"en\">\n<head>\n    <meta charset=\"UTF-8\">\n    <meta name=\"viewport\" content=\"width=device-width, initial-scale=1.0\">\n    <link rel=\"icon\" href=data:, />\n    ",
      "\n    <style>\n\t\t* \x7b font-family: monospace; \x7d\n\t\tbody \x7b display: flex; flex-direction: column; align-items: center; \x7d\n\t\tth \x7b text-align: left; \x7d\n\t\tth:before \x7b content: ''; display: block; min-width: 75px; \x7d\n    </style>\n</head>\n<body>\n\t<h1>Index of "
        ++ p ++ "</h1>\n\t<table>\n\t\t<tr>\n\t\t\t<th>Name</th>\n\t\t\t<th>Size</th>\n\t\t\t<th>Last modified</th>\n\t\t</tr>\n\t"
        ++ entryRows p es ++ listFooter, by
      apply String.ext
      simp [serveDir, listHeader, String.data_append]⟩
  · exact ⟨listHeader p ++ u ++ "\n\t\t<tr>\n\t\t\t<td>",
      "</td>\n\t\t\t<td>" ++ sizeCell e ++ "</td>\n\t\t\t<td>" ++ timeCell e
        ++ "</td>\n\t\t</tr>\n\t" ++ v ++ listFooter, by
      apply String.ext
      simp [serveDir, huv, entryRow, String.data_append]⟩
  · intro hd
    exact ⟨listHeader p ++ u ++ "\n\t\t<tr>\n\t\t\t<td><a href=\"" ++ goJoin p e.name
        ++ "\">" ++ e.name ++ "</a></td>\n\t\t\t",
      "\n\t\t</tr>\n\t" ++ v ++ listFooter, by
      apply String.ext
      simp [serveDir, huv, entryRow, sizeCell, timeCell, hd, String.data_append]⟩
  · intro hd
    exact ⟨listHeader p ++ u ++ "\n\t\t<tr>\n\t\t\t<td><a href=\"" ++ goJoin p e.name
        ++ "\">" ++ e.name ++ "</a></td>\n\t\t\t",
      "\n\t\t</tr>\n\t" ++ v ++ listFooter, by
      apply String.ext
      simp [serveDir, huv, entryRow, sizeCell, timeCell, hd, String.data_append]⟩

/-- The rows a listing renders are exactly the per-entry rows of the
given entries, concatenated in the given order. -/
theorem entryRows_eq_concat (p : String) :
    ∀ es : List ListingEntry,
      entryRows p es = strConcat (es.map (entryRow p)) ∧
      entryRowsExt p es = strConcat (es.map (entryRowExt p)) := by
  intro es
  induction es with
  | nil => exact ⟨rfl, rfl⟩
  | cons hd tl ih =>
    exact ⟨by simp [entryRows, strConcat, ih.1],
           by simp [entryRowsExt, strConcat, ih.2]⟩

/-- Each recursion step of the archive builder processes the entries of
the directory it just read left to right: its result is the in-order
sequencing of the per-child results. -/
theorem addEntries_eq_map (dir path : String) :
    ∀ es : List (String × FSNode),
      addEntries dir path es
        = exceptConcat (es.map fun e => addNode dir (goJoin path e.1) e.2) := by
  intro es
  induction es with
  | nil => rfl
  | cons p rest ih =>
    rcases p with ⟨n, c⟩
    rw [show addEntries dir path ((n, c) :: rest)
        = (match addNode dir (goJoin path n) c with
           | .error e => .error e
           | .ok zs =>
             match addEntries dir path rest with
             | .error e => .error e
             | .ok zs' => .ok (zs ++ zs')) from rfl,
      show exceptConcat (((n, c) :: rest).map
            fun e => addNode dir (goJoin path e.1) e.2)
        = (match addNode dir (goJoin path n) c with
           | .error e => .error e
           | .ok zs =>
             match exceptConcat (rest.map
                 fun e => addNode dir (goJoin path e.1) e.2) with
             | .error e => .error e
             | .ok zs' => .ok (zs ++ zs')) from rfl,
      ih]

/-- C2: every directory read is processed in enumeration order with no
sort — both renderers emit one row per entry in exactly the order the
directory enumeration handed them over, and every `ReadDir` loop of the
archive builder visits the children in that order, concatenating their
zip entries left to right; concretely, on a world whose listing is in
non-alphabetical order (`wRev`), the listing page and the zip keep that
order rather than sorting. -/
theorem enumeration_order_kept :
    (∀ (p : String) (es : List ListingEntry),
      serveDir p es = listHeader p ++ strConcat (es.map (entryRow p)) ++ listFooter) ∧
    (∀ (p : String) (es : List ListingEntry),
      serveDirExt p es = listHeaderExt p ++ strConcat (es.map (entryRowExt p)) ++ listFooterExt) ∧
    (∀ (dir path : String) (es : List (String × FSNode)),
      addEntries dir path es
        = exceptConcat (es.map fun e => addNode dir (goJoin path e.1) e.2)) ∧
    handleGet "." wRev "/" false =
      .ok (serveDir "/" [infoOf "b.txt" (.file true 1 mt0 "B"),
                         infoOf "a.txt" (.file true 1 mt0 "A")]) ∧
    archive wRev "." [] = .ok [("b.txt", "B"), ("a.txt", "A")] := by
  refine ⟨?_, ?_, addEntries_eq_map, rfl, rfl⟩
  · intro p es
    rw [serveDir, (entryRows_eq_concat p es).1]
  · intro p es
    rw [serveDirExt, (entryRows_eq_concat p es).2]

/-- Witness for C8: the file entry `asdf` of the test tree's listing at
`/`. -/
theorem listing_document_witness :
    (∃ a b, serveDir "/" [infoOf "asdf" (.file true 9 mt0 "content-A")] =
      a ++ ("<title>Index of " ++ "/" ++ "</title>") ++ b) ∧
    (∃ a b, serveDir "/" [infoOf "asdf" (.file true 9 mt0 "content-A")] =
      a ++ ("<a href=\"" ++ goJoin "/" "asdf" ++ "\">" ++ "asdf" ++ "</a>") ++ b) := by
  have h := listing_document "/" [infoOf "asdf" (.file true 9 mt0 "content-A")]
    (infoOf "asdf" (.file true 9 mt0 "content-A")) (List.mem_singleton.mpr rfl)
  exact ⟨h.1, h.2.1⟩

end Serve

/-! ### Segment-level lemmas about `Clean`, `Join`, `Rel` -/

namespace Serve

theorem splitSegs_ne_nil (cs : List Char) : splitSegs cs ≠ [] := by
  induction cs with
  | nil => simp [splitSegs]
  | cons c cs ih =>
    by_cases hc : c = '/'
    · simp [splitSegs, hc]
    · simp only [splitSegs, hc, if_false]
      cases h : splitSegs cs with
      | nil => simp
      | cons s ss => simp

/-- Splitting distributes over a separator. -/
theorem splitSegs_sep (a b : List Char) :
    splitSegs (a ++ '/' :: b) = splitSegs a ++ splitSegs b := by
  induction a with
  | nil => simp [splitSegs]
  | cons c cs ih =>
    by_cases hc : c = '/'
    · subst hc; simp [splitSegs, ih]
    · cases h : splitSegs (cs ++ '/' :: b) with
      | nil => exact absurd h (splitSegs_ne_nil _)
      | cons s ss =>
        cases h2 : splitSegs cs with
        | nil => exact absurd h2 (splitSegs_ne_nil _)
        | cons s2 ss2 =>
          rw [h, h2] at ih
          rcases List.cons.injEq .. ▸ ih with ⟨rfl, rfl⟩
          simp [splitSegs, hc, h, h2]

/-- A separator-free character list is a single segment. -/
theorem splitSegs_noSlash (cs : List Char) (h : '/' ∉ cs) :
    splitSegs cs = [cs] := by
  induction cs with
  | nil => rfl
  | cons c cs ih =>
    have hc : c ≠ '/' := fun hh => h (hh ▸ List.mem_cons_self c cs)
    have := ih (fun hm => h (List.mem_cons_of_mem c hm))
    simp [splitSegs, hc, this]

/-- Splitting is a retraction of joining for separator-free segments. -/
theorem splitSegs_joinPath (ss : List Seg) (hne : ss ≠ [])
    (hs : ∀ s ∈ ss, '/' ∉ s) : splitSegs (joinPath ss) = ss := by
  induction ss with
  | nil => exact absurd rfl hne
  | cons s ss ih =>
    cases ss with
    | nil => exact splitSegs_noSlash s (hs s (List.mem_cons_self s []))
    | cons t ts =>
      have h1 : splitSegs s = [s] := splitSegs_noSlash s (hs s (by simp))
      have h2 := ih (by simp) (fun u hu => hs u (List.mem_cons_of_mem s hu))
      show splitSegs (s ++ '/' :: joinPath (t :: ts)) = s :: t :: ts
      rw [splitSegs_sep, h1, h2]
      rfl

theorem cleanAux_append (r : Bool) : ∀ (xs ys st : List Seg),
    cleanAux r st (xs ++ ys) = cleanAux r (cleanAux r st xs) ys := by
  have hd1 : ¬(dotdot = [] ∨ dotdot = ['.']) := by decide
  intro xs
  induction xs with
  | nil => intro ys st; rfl
  | cons s xs ih =>
    intro ys st
    by_cases h1 : s = [] ∨ s = ['.']
    · simp [cleanAux, h1, ih]
    · by_cases h2 : s = dotdot
      · subst h2
        cases st with
        | nil => cases r <;> simp [cleanAux, hd1, ih]
        | cons t st' => by_cases ht : t = dotdot <;> simp [cleanAux, hd1, ht, ih]
      · simp [cleanAux, h1, h2, ih]

theorem plainSeg_iff {s : Seg} :
    plainSeg s = true ↔ s ≠ [] ∧ s ≠ ['.'] ∧ s ≠ dotdot ∧ '/' ∉ s := by
  simp only [plainSeg, Bool.and_eq_true, bne_iff_ne, ne_eq, Bool.not_eq_true']
  rw [show (List.contains s '/' = false) ↔ ¬(List.contains s '/' = true) by simp,
    List.elem_iff]
  tauto

/-- Plain segments are pushed whatever the stack holds. -/
theorem cleanAux_allPlain (r : Bool) : ∀ (xs st : List Seg),
    allPlain xs = true → cleanAux r st xs = xs.reverse ++ st := by
  intro xs
  induction xs with
  | nil => intro st _; rfl
  | cons s xs ih =>
    intro st hall
    rw [allPlain, List.all_cons, Bool.and_eq_true] at hall
    rcases plainSeg_iff.mp hall.1 with ⟨he, hd, hdd, _⟩
    have h1 : ¬(s = [] ∨ s = ['.']) := by tauto
    have hall2 : allPlain xs = true := hall.2
    simp only [cleanAux, if_neg h1, if_neg hdd]
    rw [ih (s :: st) hall2]
    simp

/-- `..` segments accumulate on an all-`..` stack of a relative path. -/
theorem cleanAux_dots : ∀ (xs st : List Seg), (∀ s ∈ xs, s = dotdot) →
    (∀ s ∈ st, s = dotdot) → cleanAux false st xs = xs.reverse ++ st := by
  intro xs
  induction xs with
  | nil => intro st _ _; rfl
  | cons s xs ih =>
    intro st hx hst
    have hd1 : ¬(dotdot = [] ∨ dotdot = ['.']) := by decide
    have hs : s = dotdot := hx s (by simp)
    subst hs
    have hxs : ∀ u ∈ xs, u = dotdot := fun u hu => hx u (List.mem_cons_of_mem _ hu)
    cases st with
    | nil =>
      simp only [cleanAux, if_neg hd1, if_pos rfl]
      rw [show (if false = true then cleanAux false [] xs
            else cleanAux false [dotdot] xs) = cleanAux false [dotdot] xs by simp,
        ih [dotdot] hxs (by simp [dotdot])]
      simp
    | cons t st' =>
      have ht : t = dotdot := hst t (by simp)
      subst ht
      simp only [cleanAux, if_neg hd1, if_pos rfl]
      rw [ih (dotdot :: dotdot :: st') hxs (by
        intro u hu
        rcases List.mem_cons.mp hu with rfl | hu2
        · rfl
        · rcases List.mem_cons.mp hu2 with rfl | hu3
          · rfl
          · exact hst u (List.mem_cons_of_mem _ hu3))]
      simp

/-- A `cleanShape` list is leading `..`s then plain segments. -/
theorem cleanShape_decomp : ∀ ds : List Seg, cleanShape ds = true →
    ∃ dots plains, ds = dots ++ plains ∧ (∀ s ∈ dots, s = dotdot) ∧
      allPlain plains = true := by
  intro ds
  induction ds with
  | nil => intro _; exact ⟨[], [], rfl, by simp, rfl⟩
  | cons s rest ih =>
    intro h
    by_cases hs : s = dotdot
    · rw [cleanShape, if_pos hs] at h
      rcases ih h with ⟨dots, plains, heq, hdots, hplains⟩
      exact ⟨s :: dots, plains, by simp [heq], by
        intro u hu
        rcases List.mem_cons.mp hu with rfl | hu2
        · exact hs
        · exact hdots u hu2, hplains⟩
    · rw [cleanShape, if_neg hs] at h
      exact ⟨[], s :: rest, rfl, by simp, h⟩

/-- Processing a `cleanForm` list from the empty stack reproduces it. -/
theorem cleanAux_cleanForm (r : Bool) (ds : List Seg)
    (h : cleanForm r ds = true) : cleanAux r [] ds = ds.reverse := by
  cases r with
  | true =>
    have h2 : allPlain ds = true := h
    simpa using cleanAux_allPlain true ds [] h2
  | false =>
    have h2 : cleanShape ds = true := h
    rcases cleanShape_decomp ds h2 with ⟨dots, plains, rfl, hdots, hplains⟩
    rw [cleanAux_append, cleanAux_dots dots [] hdots (by simp),
      cleanAux_allPlain false plains _ hplains]
    simp

end Serve

namespace Serve

theorem cleanShape_allDots : ∀ xs : List Seg, (∀ s ∈ xs, s = dotdot) →
    cleanShape xs = true := by
  intro xs
  induction xs with
  | nil => intro _; rfl
  | cons s xs ih =>
    intro h
    rw [cleanShape, if_pos (h s (by simp))]
    exact ih fun u hu => h u (List.mem_cons_of_mem s hu)

theorem cleanForm_append_left (r : Bool) : ∀ xs ys : List Seg,
    cleanForm r (xs ++ ys) = true → cleanForm r xs = true := by
  intro xs ys
  cases r with
  | true =>
    show allPlain (xs ++ ys) = true → allPlain xs = true
    simp only [allPlain, List.all_append, Bool.and_eq_true]
    exact fun h => h.1
  | false =>
    show cleanShape (xs ++ ys) = true → cleanShape xs = true
    induction xs with
    | nil => intro _; rfl
    | cons s xs ih =>
      intro h
      by_cases hs : s = dotdot
      · rw [List.cons_append, cleanShape, if_pos hs] at h
        rw [cleanShape, if_pos hs]
        exact ih h
      · rw [List.cons_append, cleanShape, if_neg hs] at h
        rw [cleanShape, if_neg hs]
        rw [allPlain, show s :: (xs ++ ys) = (s :: xs) ++ ys from rfl,
          List.all_append, Bool.and_eq_true] at h
        exact h.1

theorem cleanForm_append_plain (r : Bool) (xs : List Seg) (s : Seg)
    (h : cleanForm r xs = true) (hs : plainSeg s = true) :
    cleanForm r (xs ++ [s]) = true := by
  cases r with
  | true =>
    show allPlain (xs ++ [s]) = true
    have h2 : allPlain xs = true := h
    simp only [allPlain, List.all_append, Bool.and_eq_true] at *
    exact ⟨h2, by simp [List.all_cons, hs]⟩
  | false =>
    show cleanShape (xs ++ [s]) = true
    have h2 : cleanShape xs = true := h
    clear h
    induction xs with
    | nil =>
      have hsd : s ≠ dotdot := (plainSeg_iff.mp hs).2.2.1
      rw [List.nil_append, cleanShape, if_neg hsd]
      simp [allPlain, List.all_cons, hs]
    | cons x xs ih =>
      by_cases hx : x = dotdot
      · rw [cleanShape, if_pos hx] at h2
        rw [List.cons_append, cleanShape, if_pos hx]
        exact ih h2
      · rw [cleanShape, if_neg hx] at h2
        rw [List.cons_append, cleanShape, if_neg hx]
        rw [show x :: (xs ++ [s]) = (x :: xs) ++ [s] from rfl, allPlain,
          List.all_append, Bool.and_eq_true]
        refine ⟨h2, by simp [List.all_cons, hs]⟩

theorem cleanShape_last_dotdot : ∀ xs : List Seg,
    cleanShape (xs ++ [dotdot]) = true → ∀ s ∈ xs, s = dotdot := by
  intro xs
  induction xs with
  | nil => intro _ s hs; cases hs
  | cons x xs ih =>
    intro h s hs
    by_cases hx : x = dotdot
    · rw [List.cons_append, cleanShape, if_pos hx] at h
      rcases List.mem_cons.mp hs with rfl | hmem
      · exact hx
      · exact ih h s hmem
    · rw [List.cons_append, cleanShape, if_neg hx] at h
      rw [allPlain] at h
      have : plainSeg dotdot = true :=
        (List.all_eq_true.mp h) dotdot (by simp)
      exact absurd this (by decide)

/-- Every segment of a `cleanForm` list is non-empty and separator-free. -/
theorem cleanForm_mem (r : Bool) (ds : List Seg) (h : cleanForm r ds = true) :
    ∀ s ∈ ds, s ≠ [] ∧ '/' ∉ s := by
  intro s hs
  cases r with
  | true =>
    have h2 : allPlain ds = true := h
    rw [allPlain] at h2
    rcases plainSeg_iff.mp ((List.all_eq_true.mp h2) s hs) with ⟨h1, _, _, h4⟩
    exact ⟨h1, h4⟩
  | false =>
    have h2 : cleanShape ds = true := h
    rcases cleanShape_decomp ds h2 with ⟨dots, plains, rfl, hdots, hplains⟩
    rcases List.mem_append.mp hs with hd | hp
    · rw [hdots s hd]; exact ⟨by decide, by decide⟩
    · rw [allPlain] at hplains
      rcases plainSeg_iff.mp ((List.all_eq_true.mp hplains) s hp) with ⟨h1, _, _, h4⟩
      exact ⟨h1, h4⟩

/-- The stack of `cleanAux` stays a reversed `cleanForm` list. -/
theorem cleanAux_preserves (r : Bool) : ∀ (xs st : List Seg),
    (∀ s ∈ xs, '/' ∉ s) → cleanForm r st.reverse = true →
    cleanForm r (cleanAux r st xs).reverse = true := by
  intro xs
  induction xs with
  | nil => intro st _ hst; exact hst
  | cons s xs ih =>
    intro st hsl hst
    have hxs : ∀ u ∈ xs, '/' ∉ u := fun u hu => hsl u (List.mem_cons_of_mem s hu)
    by_cases h1 : s = [] ∨ s = ['.']
    · simp only [cleanAux, if_pos h1]
      exact ih st hxs hst
    · by_cases h2 : s = dotdot
      · subst h2
        cases st with
        | nil =>
          cases r with
          | true => exact ih [] hxs hst
          | false =>
            refine ih [dotdot] hxs ?_
            show cleanShape [dotdot] = true
            rw [cleanShape, if_pos rfl]
            rfl
        | cons t st' =>
          by_cases ht : t = dotdot
          · subst ht
            cases r with
            | true =>
              exfalso
              have hst2 : allPlain (dotdot :: st').reverse = true := hst
              rw [List.reverse_cons, allPlain, List.all_append,
                Bool.and_eq_true] at hst2
              have : plainSeg dotdot = true := by
                simpa [List.all_cons] using hst2.2
              exact absurd this (by decide)
            | false =>
              refine ih (dotdot :: dotdot :: st') hxs ?_
              show cleanShape (dotdot :: dotdot :: st').reverse = true
              have hst2 : cleanShape (dotdot :: st').reverse = true := hst
              rw [List.reverse_cons] at hst2
              have hall : ∀ u ∈ st'.reverse, u = dotdot :=
                cleanShape_last_dotdot st'.reverse hst2
              apply cleanShape_allDots
              intro u hu
              simp only [List.reverse_cons] at hu
              rcases List.mem_append.mp hu with hu1 | hu2
              · rcases List.mem_append.mp hu1 with hu3 | hu4
                · exact hall u hu3
                · simpa using hu4
              · simpa using hu2
          · have hd1 : ¬(dotdot = [] ∨ dotdot = ['.']) := by decide
            simp only [cleanAux, if_neg hd1, if_pos rfl, if_neg ht]
            refine ih st' hxs ?_
            rw [List.reverse_cons] at hst
            exact cleanForm_append_left r _ _ hst
      · simp only [cleanAux, if_neg h1, if_neg h2]
        refine ih (s :: st) hxs ?_
        rw [List.reverse_cons]
        refine cleanForm_append_plain r _ s hst ?_
        refine plainSeg_iff.mpr ⟨?_, ?_, h2, hsl s (by simp)⟩
        · intro hnil; exact h1 (Or.inl hnil)
        · intro hdot; exact h1 (Or.inr hdot)

theorem splitSegs_noSlash_mem : ∀ cs : List Char, ∀ s ∈ splitSegs cs, '/' ∉ s := by
  intro cs
  induction cs with
  | nil =>
    intro s hs
    rw [splitSegs] at hs
    rcases List.mem_singleton.mp hs with rfl
    exact List.not_mem_nil '/'
  | cons c cs ih =>
    intro s hs
    by_cases hc : c = '/'
    · rw [splitSegs, if_pos hc] at hs
      rcases List.mem_cons.mp hs with rfl | hmem
      · exact List.not_mem_nil '/'
      · exact ih s hmem
    · rw [splitSegs, if_neg hc] at hs
      cases hsp : splitSegs cs with
      | nil => exact absurd hsp (splitSegs_ne_nil cs)
      | cons t ts =>
        rw [hsp] at hs
        rcases List.mem_cons.mp hs with rfl | hmem
        · intro hmem2
          rcases List.mem_cons.mp hmem2 with h | h
          · exact hc h.symm
          · exact ih t (hsp ▸ List.mem_cons_self t ts) h
        · exact ih s (hsp ▸ List.mem_cons_of_mem t hmem)

/-- `Clean` output, as segments, is always in canonical form. -/
theorem cleanForm_goCleanSegs (p : String) :
    cleanForm (isRooted p) (goCleanSegs p) = true := by
  rw [goCleanSegs]
  exact cleanAux_preserves (isRooted p) (splitSegs p.data) []
    (splitSegs_noSlash_mem p.data) (by cases isRooted p <;> rfl)

end Serve

namespace Serve

theorem joinPath_ne_nil (ds : List Seg) (hne : ds ≠ [])
    (h : ∀ s ∈ ds, s ≠ []) : joinPath ds ≠ [] := by
  cases ds with
  | nil => exact absurd rfl hne
  | cons s rest =>
    cases rest with
    | nil => exact h s (by simp)
    | cons t ts => simp [joinPath]

theorem joinPath_head (s : Seg) (rest : List Seg) (hs : s ≠ []) :
    (joinPath (s :: rest)).head? = s.head? := by
  cases rest with
  | nil => rfl
  | cons t ts =>
    show (s ++ '/' :: joinPath (t :: ts)).head? = s.head?
    exact List.head?_append_of_ne_nil _ hs

theorem isRooted_segsToPath (r : Bool) (ds : List Seg)
    (h : cleanForm r ds = true) : isRooted (segsToPath r ds) = r := by
  cases r with
  | true => rfl
  | false =>
    cases ds with
    | nil => rfl
    | cons s rest =>
      rcases cleanForm_mem false (s :: rest) h s (by simp) with ⟨hne, hsl⟩
      cases s with
      | nil => exact absurd rfl hne
      | cons c cs =>
        have hc : c ≠ '/' := fun hh => hsl (hh ▸ by simp)
        show isRooted (String.mk (joinPath ((c :: cs) :: rest))) = false
        rw [isRooted,
          show (String.mk (joinPath ((c :: cs) :: rest))).data
            = joinPath ((c :: cs) :: rest) from rfl,
          joinPath_head (c :: cs) rest (by simp)]
        simp [hc]

theorem segsToPath_ne_empty (r : Bool) (ds : List Seg)
    (h : cleanForm r ds = true) : segsToPath r ds ≠ "" := by
  cases r with
  | true =>
    intro heq
    have := congrArg String.data heq
    simp only [segsToPath] at this
    exact absurd this (by simp)
  | false =>
    cases ds with
    | nil => intro heq; exact absurd heq (by decide)
    | cons s rest =>
      intro heq
      have hd := congrArg String.data heq
      have hjp : joinPath (s :: rest) ≠ [] :=
        joinPath_ne_nil (s :: rest) (by simp)
          (fun u hu => (cleanForm_mem false (s :: rest) h u hu).1)
      exact hjp (by simpa using hd)

theorem cleanAux_segsToPath (r : Bool) (ds : List Seg)
    (h : cleanForm r ds = true) :
    cleanAux r [] (splitSegs (segsToPath r ds).data) = ds.reverse := by
  cases r with
  | true =>
    cases ds with
    | nil => rfl
    | cons s rest =>
      have hsl : ∀ u ∈ s :: rest, '/' ∉ u :=
        fun u hu => (cleanForm_mem true (s :: rest) h u hu).2
      show cleanAux true [] (splitSegs ('/' :: joinPath (s :: rest))) = _
      rw [show splitSegs ('/' :: joinPath (s :: rest))
          = [] :: splitSegs (joinPath (s :: rest)) by simp [splitSegs],
        splitSegs_joinPath (s :: rest) (by simp) hsl]
      rw [show cleanAux true [] ([] :: s :: rest) = cleanAux true [] (s :: rest) by
        simp [cleanAux]]
      exact cleanAux_cleanForm true (s :: rest) h
  | false =>
    cases ds with
    | nil => rfl
    | cons s rest =>
      have hsl : ∀ u ∈ s :: rest, '/' ∉ u :=
        fun u hu => (cleanForm_mem false (s :: rest) h u hu).2
      show cleanAux false [] (splitSegs (joinPath (s :: rest))) = _
      rw [splitSegs_joinPath (s :: rest) (by simp) hsl]
      exact cleanAux_cleanForm false (s :: rest) h

theorem goCleanSegs_segsToPath (r : Bool) (ds : List Seg)
    (h : cleanForm r ds = true) : goCleanSegs (segsToPath r ds) = ds := by
  rw [goCleanSegs, isRooted_segsToPath r ds h, cleanAux_segsToPath r ds h,
    List.reverse_reverse]

theorem goClean_segsToPath (r : Bool) (ds : List Seg)
    (h : cleanForm r ds = true) : goClean (segsToPath r ds) = segsToPath r ds := by
  rw [goClean, if_neg (segsToPath_ne_empty r ds h), isRooted_segsToPath r ds h,
    goCleanSegs_segsToPath r ds h]

/-- Every `Clean` output is a canonical-form path. -/
theorem goClean_canonical (p : String) :
    ∃ r ds, goClean p = segsToPath r ds ∧ cleanForm r ds = true := by
  by_cases hp : p = ""
  · subst hp; exact ⟨false, [], rfl, rfl⟩
  · exact ⟨isRooted p, goCleanSegs p, by rw [goClean, if_neg hp],
      cleanForm_goCleanSegs p⟩

end Serve

namespace Serve

theorem simpleName_plain (n : String) (h : simpleName n = true) :
    plainSeg n.data = true := by
  simp only [simpleName, Bool.and_eq_true, bne_iff_ne, ne_eq,
    Bool.not_eq_true'] at h
  rcases h with ⟨⟨⟨h1, h2⟩, h3⟩, h4⟩
  refine plainSeg_iff.mpr ⟨?_, ?_, ?_, ?_⟩
  · intro hd; exact h1 (String.ext hd)
  · intro hd; exact h2 (String.ext hd)
  · intro hd; exact h3 (String.ext hd)
  · intro hm
    rw [show (List.contains n.data '/' = false) ↔
        ¬(List.contains n.data '/' = true) by simp, List.elem_iff] at h4
    exact h4 hm

theorem cleanForm_append_allPlain (r : Bool) :
    ∀ (rs ds : List Seg), cleanForm r ds = true → allPlain rs = true →
    cleanForm r (ds ++ rs) = true := by
  intro rs
  induction rs with
  | nil => intro ds h _; simpa using h
  | cons x rest ih =>
    intro ds h hall
    rw [allPlain, List.all_cons, Bool.and_eq_true] at hall
    have h2 : cleanForm r (ds ++ [x]) = true :=
      cleanForm_append_plain r ds x h hall.1
    have := ih (ds ++ [x]) h2 hall.2
    simpa [List.append_assoc] using this

/-- `Join`ing a simple name onto a canonical path appends one segment. -/
theorem goJoin_segsToPath (r : Bool) (ds : List Seg) (n : String)
    (h : cleanForm r ds = true) (hn : simpleName n = true) :
    goJoin (segsToPath r ds) n = segsToPath r (ds ++ [n.data]) := by
  have hne := segsToPath_ne_empty r ds h
  rw [goJoin, if_neg hne]
  have hdata : (segsToPath r ds ++ "/" ++ n).data
      = (segsToPath r ds).data ++ '/' :: n.data := by
    simp [String.data_append]
  have hdne : (segsToPath r ds).data ≠ [] := by
    intro hd; exact hne (String.ext hd)
  have hroot : isRooted (segsToPath r ds ++ "/" ++ n) = r := by
    rw [isRooted, hdata, List.head?_append_of_ne_nil _ hdne]
    exact isRooted_segsToPath r ds h
  have hnsl : '/' ∉ n.data := (plainSeg_iff.mp (simpleName_plain n hn)).2.2.2
  have hsplit : splitSegs (segsToPath r ds ++ "/" ++ n).data
      = splitSegs (segsToPath r ds).data ++ [n.data] := by
    rw [hdata, splitSegs_sep, splitSegs_noSlash n.data hnsl]
  have hclean : cleanAux r [] (splitSegs (segsToPath r ds ++ "/" ++ n).data)
      = n.data :: ds.reverse := by
    rw [hsplit, cleanAux_append, cleanAux_segsToPath r ds h]
    have := cleanAux_allPlain r [n.data] ds.reverse
      (by simp [allPlain, List.all_cons, simpleName_plain n hn])
    simpa using this
  have hne2 : segsToPath r ds ++ "/" ++ n ≠ "" := by
    intro heq
    have h3 := congrArg String.data heq
    rw [hdata] at h3
    have h4 : (segsToPath r ds).data ++ '/' :: n.data = ([] : List Char) := h3
    rcases List.append_eq_nil.mp h4 with ⟨_, h5⟩
    cases h5
  rw [goClean, if_neg hne2, hroot, goCleanSegs, hroot, hclean]
  simp

theorem walk_append (ys : List Seg) : ∀ (n : FSNode) (xs : List Seg),
    walk n (xs ++ ys) =
      match walk n xs with
      | none => none
      | some m => walk m ys := by
  intro n xs
  induction xs generalizing n with
  | nil => simp [walk]
  | cons s xs ih =>
    rw [List.cons_append]
    cases n with
    | file rd sz t c => rfl
    | dir rd l es =>
      rw [show walk (FSNode.dir rd l es) (s :: (xs ++ ys))
          = match findEntry (String.mk s) es with
            | none => none
            | some c => walk c (xs ++ ys) from rfl,
        show walk (FSNode.dir rd l es) (s :: xs)
          = match findEntry (String.mk s) es with
            | none => none
            | some c => walk c xs from rfl]
      cases hf : findEntry (String.mk s) es with
      | none => rfl
      | some c => exact ih c

/-- Looking up `Join(dir, name)` for a canonical `dir` and a simple `name`
finds the `name` entry of the directory `dir` resolves to. -/
theorem lookup_goJoin (world : FSNode) (r : Bool) (ds : List Seg) (n : String)
    (h : cleanForm r ds = true) (hn : simpleName n = true) :
    lookup world (goJoin (segsToPath r ds) n) =
      match lookup world (segsToPath r ds) with
      | some (.dir _ _ es) => findEntry n es
      | _ => none := by
  rw [goJoin_segsToPath r ds n h hn, lookup, goCleanSegs_segsToPath r _
    (cleanForm_append_allPlain r [n.data] ds h
      (by simp [allPlain, List.all_cons, simpleName_plain n hn])),
    walk_append, lookup, goCleanSegs_segsToPath r ds h]
  cases walk world ds with
  | none => rfl
  | some m =>
    cases m with
    | file rd sz t c => rfl
    | dir rd l es =>
      show walk (FSNode.dir rd l es) [n.data] = findEntry n es
      rw [walk]
      have : String.mk n.data = n := rfl
      rw [this]
      cases hf : findEntry n es with
      | none => rfl
      | some c => cases c <;> rfl

end Serve

namespace Serve

theorem relSegs_eq (p : String) : relSegs p =
    match p.data with
    | [] => []
    | c :: rest =>
      if c = '/' then (if rest = [] then [] else splitSegs rest)
      else splitSegs (c :: rest) := rfl

theorem relSegs_segsToPath (r : Bool) (ds : List Seg)
    (h : cleanForm r ds = true) (hor : r = true ∨ ds ≠ []) :
    relSegs (segsToPath r ds) = ds := by
  cases r with
  | true =>
    cases ds with
    | nil => rfl
    | cons s rest =>
      have hjne : joinPath (s :: rest) ≠ [] :=
        joinPath_ne_nil _ (by simp)
          (fun u hu => (cleanForm_mem true _ h u hu).1)
      have hsl : ∀ u ∈ s :: rest, '/' ∉ u :=
        fun u hu => (cleanForm_mem true _ h u hu).2
      show (if joinPath (s :: rest) = [] then []
            else splitSegs (joinPath (s :: rest))) = s :: rest
      rw [if_neg hjne, splitSegs_joinPath _ (by simp) hsl]
  | false =>
    rcases hor with hor | hne
    · cases hor
    · cases ds with
      | nil => exact absurd rfl hne
      | cons s rest =>
        rcases cleanForm_mem false (s :: rest) h s (by simp) with ⟨hsne, hssl⟩
        have hsl : ∀ u ∈ s :: rest, '/' ∉ u :=
          fun u hu => (cleanForm_mem false _ h u hu).2
        cases s with
        | nil => exact absurd rfl hsne
        | cons c cs =>
          have hc : c ≠ '/' := fun hh => hssl (hh ▸ by simp)
          have hdata : (segsToPath false ((c :: cs) :: rest)).data
              = joinPath ((c :: cs) :: rest) := rfl
          have hcons : ∃ tl, joinPath ((c :: cs) :: rest) = c :: tl := by
            cases rest with
            | nil => exact ⟨cs, rfl⟩
            | cons t ts => exact ⟨cs ++ '/' :: joinPath (t :: ts), rfl⟩
          rcases hcons with ⟨tl, htl⟩
          rw [relSegs_eq, hdata, htl]
          show (if c = '/' then (if tl = [] then [] else splitSegs tl)
                else splitSegs (c :: tl)) = (c :: cs) :: rest
          rw [if_neg hc, ← htl,
            splitSegs_joinPath _ (by simp) hsl]

theorem commonLen_self_append : ∀ ds rs : List Seg,
    commonLen ds (ds ++ rs) = ds.length := by
  intro ds rs
  induction ds with
  | nil => cases rs <;> rfl
  | cons d ds ih =>
    rw [List.cons_append, commonLen, if_pos rfl, ih]
    rfl

theorem segsToPath_ne_dot (r : Bool) (ds : List Seg)
    (h : cleanForm r ds = true) (hor : r = true ∨ ds ≠ []) :
    segsToPath r ds ≠ "." := by
  intro heq
  rcases hor with rfl | hne
  · have h2 := congrArg (fun s => s.data.head?) heq
    have h3 : (some '/' : Option Char) = some '.' := h2
    simp at h3
  · have h2 := congrArg goCleanSegs heq
    rw [goCleanSegs_segsToPath r ds h] at h2
    have h3 : goCleanSegs "." = [] := rfl
    rw [h3] at h2
    exact hne h2

theorem segsToPath_append_ne (r : Bool) (ds rs : List Seg)
    (hcf2 : cleanForm r (ds ++ rs) = true) (hcf : cleanForm r ds = true)
    (hne : rs ≠ []) : segsToPath r (ds ++ rs) ≠ segsToPath r ds := by
  intro heq
  have h2 := congrArg goCleanSegs heq
  rw [goCleanSegs_segsToPath r _ hcf2, goCleanSegs_segsToPath r ds hcf] at h2
  exact hne (List.append_right_eq_self.mp h2)

/-- `Rel(dir, dir/rs)` for a canonical `dir` and plain extension `rs` is
the `/`-joined `rs`. -/
theorem goRel_append (r : Bool) (ds rs : List Seg)
    (h : cleanForm r ds = true) (hall : allPlain rs = true) (hne : rs ≠ []) :
    goRel (segsToPath r ds) (segsToPath r (ds ++ rs))
      = some (String.mk (joinPath rs)) := by
  have hcf2 : cleanForm r (ds ++ rs) = true :=
    cleanForm_append_allPlain r rs ds h hall
  have hb : goClean (segsToPath r ds) = segsToPath r ds :=
    goClean_segsToPath r ds h
  have ht : goClean (segsToPath r (ds ++ rs)) = segsToPath r (ds ++ rs) :=
    goClean_segsToPath r _ hcf2
  have hne2 : segsToPath r (ds ++ rs) ≠ segsToPath r ds :=
    segsToPath_append_ne r ds rs hcf2 h hne
  simp only [goRel]
  rw [hb, ht, if_neg hne2]
  by_cases hcase : r = false ∧ ds = []
  · rcases hcase with ⟨rfl, rfl⟩
    rw [if_pos (show segsToPath false [] = "." from rfl)]
    have hri : isRooted (segsToPath false ([] ++ rs)) = false :=
      isRooted_segsToPath false _ hcf2
    rw [show isRooted "" = false from rfl, hri]
    rw [if_neg (show ¬((false != false) = true) by simp)]
    have hts : relSegs (segsToPath false ([] ++ rs)) = rs := by
      rw [show ([] ++ rs : List Seg) = rs from rfl] at hcf2 ⊢
      exact relSegs_segsToPath false rs hcf2 (Or.inr hne)
    rw [show relSegs "" = [] from rfl, hts]
    rw [show commonLen [] rs = 0 by cases rs <;> rfl]
    simp [List.drop_zero]
  · have hor : r = true ∨ ds ≠ [] := by
      cases r with
      | true => exact Or.inl rfl
      | false =>
        refine Or.inr fun hd => hcase ⟨rfl, hd⟩
    rw [if_neg (segsToPath_ne_dot r ds h hor)]
    rw [isRooted_segsToPath r ds h, isRooted_segsToPath r _ hcf2]
    rw [if_neg (show ¬((r != r) = true) by simp)]
    rw [relSegs_segsToPath r ds h hor,
      relSegs_segsToPath r _ hcf2 (by
        rcases hor with rfl | hne2
        · exact Or.inl rfl
        · refine Or.inr fun hd => hne2 (List.append_eq_nil.mp hd).1),
      commonLen_self_append ds rs, List.drop_length]
    rw [if_neg (show ¬(([] : List Seg).head? = some dotdot) by simp),
      if_pos rfl, List.drop_left]

end Serve

namespace Serve

theorem goRel_self (p : String) : goRel p p = some "." := by
  simp [goRel]

theorem pathOfNames_mk_joinPath : ∀ ns : List String,
    String.mk (joinPath (ns.map String.data)) = pathOfNames ns := by
  intro ns
  induction ns with
  | nil => rfl
  | cons n rest ih =>
    cases rest with
    | nil => rfl
    | cons m ms =>
      apply String.ext
      have hdata : joinPath ((m :: ms).map String.data)
          = (pathOfNames (m :: ms)).data := congrArg String.data ih
      show n.data ++ '/' :: joinPath ((m :: ms).map String.data)
          = (n ++ "/" ++ pathOfNames (m :: ms)).data
      rw [hdata]
      simp [String.data_append]

theorem allPlain_names (ns : List String)
    (h : ∀ n ∈ ns, simpleName n = true) :
    allPlain (ns.map String.data) = true := by
  rw [allPlain, List.all_eq_true]
  intro s hs
  rcases List.mem_map.mp hs with ⟨n, hn, rfl⟩
  exact simpleName_plain n (h n hn)

theorem goodEntries_cons (n : String) (c : FSNode)
    (rest : List (String × FSNode)) (h : goodEntries ((n, c) :: rest) = true) :
    simpleName n = true ∧ goodNode c = true ∧ goodEntries rest = true := by
  have h2 : (simpleName n && goodNode c && goodEntries rest) = true := h
  simp only [Bool.and_eq_true] at h2
  exact ⟨h2.1.1, h2.1.2, h2.2⟩

theorem goodEntries_find (n : String) (c : FSNode) :
    ∀ es : List (String × FSNode), goodEntries es = true →
    findEntry n es = some c → goodNode c = true := by
  intro es
  induction es with
  | nil => intro _ hf; cases hf
  | cons p rest ih =>
    rcases p with ⟨m, d⟩
    intro h hf
    rcases goodEntries_cons m d rest h with ⟨_, hd, hrest⟩
    rw [findEntry] at hf
    by_cases hm : m = n
    · rw [if_pos hm] at hf
      cases hf
      exact hd
    · rw [if_neg hm] at hf
      exact ih hrest hf

mutual

/-- `addToArchive`'s node recursion, on a good node reached from the base
directory via the name chain `names`, produces exactly the files under
the node, each under the `/`-joined relative name chain. -/
theorem addNode_spec (r : Bool) (ds : List Seg) (names : List String)
    (node : FSNode) (h : cleanForm r ds = true)
    (hn : ∀ n ∈ names, simpleName n = true) (hg : goodNode node = true)
    (hne : names = [] → node.isDir = true) :
    addNode (segsToPath r ds) (segsToPath r (ds ++ names.map String.data)) node
      = .ok ((filesUnder node).map fun q => (pathOfNames (names ++ q.1), q.2)) := by
  cases node with
  | file fr sz t content =>
    have hfr : fr = true := hg
    have hnn : names ≠ [] := by
      intro hh
      have := hne hh
      simp [FSNode.isDir] at this
    have hmapne : names.map String.data ≠ [] := by
      intro hh
      exact hnn (List.map_eq_nil_iff.mp hh)
    rw [show addNode (segsToPath r ds)
          (segsToPath r (ds ++ names.map String.data)) (.file fr sz t content)
        = (match goRel (segsToPath r ds)
              (segsToPath r (ds ++ names.map String.data)) with
           | none => .error .relFail
           | some rel =>
             if fr then .ok [(rel, content)] else .error .permission) from rfl,
      goRel_append r ds (names.map String.data) h
        (allPlain_names names hn) hmapne, hfr]
    rw [show filesUnder (FSNode.file true sz t content)
        = [([], content)] from rfl]
    simp [pathOfNames_mk_joinPath]
  | dir dr dl es =>
    have hg2 : (dr && dl && goodEntries es) = true := hg
    simp only [Bool.and_eq_true] at hg2
    rcases hg2 with ⟨⟨hdr, hdl⟩, hges⟩
    subst hdr; subst hdl
    have hrel : ∃ rel, goRel (segsToPath r ds)
        (segsToPath r (ds ++ names.map String.data)) = some rel := by
      cases hnames : names with
      | nil =>
        refine ⟨".", ?_⟩
        rw [show (([] : List String).map String.data) = [] from rfl,
          List.append_nil]
        exact goRel_self _
      | cons m ms =>
        exact ⟨String.mk (joinPath ((m :: ms).map String.data)),
          goRel_append r ds _ h (allPlain_names _ (hnames ▸ hn))
            (by simp)⟩
    rcases hrel with ⟨rel, hrel⟩
    rw [show addNode (segsToPath r ds)
          (segsToPath r (ds ++ names.map String.data)) (.dir true true es)
        = (match goRel (segsToPath r ds)
              (segsToPath r (ds ++ names.map String.data)) with
           | none => .error .relFail
           | some _ =>
             addEntries (segsToPath r ds)
               (segsToPath r (ds ++ names.map String.data)) es) from by
        rw [show addNode (segsToPath r ds)
              (segsToPath r (ds ++ names.map String.data)) (.dir true true es)
            = (match goRel (segsToPath r ds)
                  (segsToPath r (ds ++ names.map String.data)) with
               | none => .error .relFail
               | some _ =>
                 if true then
                   (if true then addEntries (segsToPath r ds)
                     (segsToPath r (ds ++ names.map String.data)) es
                    else .error .readDirFail)
                 else .error .permission) from rfl]
        rfl,
      hrel]
    rw [addEntries_spec r ds names es h hn hges]
    rw [show filesUnder (FSNode.dir true true es) = entriesFiles es from rfl]

/-- The per-entry loop of `addToArchive` across a good listing. -/
theorem addEntries_spec (r : Bool) (ds : List Seg) (names : List String)
    (es : List (String × FSNode)) (h : cleanForm r ds = true)
    (hn : ∀ n ∈ names, simpleName n = true) (hg : goodEntries es = true) :
    addEntries (segsToPath r ds) (segsToPath r (ds ++ names.map String.data)) es
      = .ok ((entriesFiles es).map fun q => (pathOfNames (names ++ q.1), q.2)) := by
  cases es with
  | nil => rfl
  | cons p rest =>
    rcases p with ⟨n, c⟩
    rcases goodEntries_cons n c rest hg with ⟨hsn, hgc, hgrest⟩
    have hcf2 : cleanForm r (ds ++ names.map String.data) = true :=
      cleanForm_append_allPlain r _ ds h (allPlain_names names hn)
    have hjoin : goJoin (segsToPath r (ds ++ names.map String.data)) n
        = segsToPath r (ds ++ (names ++ [n]).map String.data) := by
      rw [goJoin_segsToPath r _ n hcf2 hsn]
      simp [List.append_assoc]
    have hn2 : ∀ m ∈ names ++ [n], simpleName m = true := by
      intro m hm
      rcases List.mem_append.mp hm with hm1 | hm2
      · exact hn m hm1
      · rw [List.mem_singleton.mp hm2]
        exact hsn
    have hchild := addNode_spec r ds (names ++ [n]) c h hn2 hgc
      (by intro hh; exact absurd hh (by simp))
    rw [show addEntries (segsToPath r ds)
          (segsToPath r (ds ++ names.map String.data)) ((n, c) :: rest)
        = (match addNode (segsToPath r ds)
              (goJoin (segsToPath r (ds ++ names.map String.data)) n) c with
           | .error e => .error e
           | .ok zs =>
             match addEntries (segsToPath r ds)
                 (segsToPath r (ds ++ names.map String.data)) rest with
             | .error e => .error e
             | .ok zs' => .ok (zs ++ zs')) from rfl,
      hjoin, hchild, addEntries_spec r ds names rest h hn hgrest]
    rw [show entriesFiles ((n, c) :: rest)
        = (filesUnder c).map (fun q => (n :: q.1, q.2)) ++ entriesFiles rest
        from rfl]
    simp only [List.map_append, List.map_map]
    congr 1
    have hmaps : List.map (fun q => (pathOfNames (names ++ [n] ++ q.1), q.2))
          (filesUnder c)
        = List.map ((fun q => (pathOfNames (names ++ q.1), q.2))
            ∘ fun q : List String × String => (n :: q.1, q.2)) (filesUnder c) :=
      List.map_eq_map_iff.mpr fun q _ => by
        simp [Function.comp, List.append_assoc]
    rw [hmaps]

end

end Serve

namespace Serve

theorem goClean_ne_empty (p : String) : goClean p ≠ "" := by
  by_cases hp : p = ""
  · subst hp; decide
  · rw [goClean, if_neg hp]
    exact segsToPath_ne_empty _ _ (cleanForm_goCleanSegs p)

/-- Every resolved request path is a canonical-form path. -/
theorem resolvePath_canonical (a u : String) :
    ∃ r ds, resolvePath a u = segsToPath r ds ∧ cleanForm r ds = true := by
  rw [resolvePath, goJoin]
  by_cases ha : a = ""
  · rw [if_pos ha, if_neg (goClean_ne_empty u)]
    exact goClean_canonical _
  · rw [if_neg ha]
    exact goClean_canonical _

/-- The selected-names loop of `archive` over valid selections. -/
theorem archiveNames_spec (world : FSNode) (r : Bool) (ds : List Seg)
    (es : List (String × FSNode)) (h : cleanForm r ds = true)
    (hlk : lookup world (segsToPath r ds) = some (.dir true true es))
    (hges : goodEntries es = true) :
    ∀ names : List String,
      (∀ n ∈ names, simpleName n = true ∧ ∃ c, findEntry n es = some c) →
      archiveNames world (segsToPath r ds) names = .ok (selectedFiles es names) := by
  intro names
  induction names with
  | nil => intro _; rfl
  | cons n rest ih =>
    intro hnames
    rcases hnames n (by simp) with ⟨hsn, c, hfind⟩
    have hrest : ∀ m ∈ rest, simpleName m = true ∧ ∃ d, findEntry m es = some d :=
      fun m hm => hnames m (List.mem_cons_of_mem n hm)
    have hlkj : lookup world (goJoin (segsToPath r ds) n) = some c := by
      rw [lookup_goJoin world r ds n h hsn, hlk]
      exact hfind
    have hgc : goodNode c = true := goodEntries_find n c es hges hfind
    have hjoin : goJoin (segsToPath r ds) n = segsToPath r (ds ++ [n].map String.data) :=
      goJoin_segsToPath r ds n h hsn
    have hchild := addNode_spec r ds [n] c h
      (fun m hm => by rw [List.mem_singleton.mp hm]; exact hsn) hgc
      (fun hh => absurd hh (by simp))
    have haa : addToArchive world (segsToPath r ds) (goJoin (segsToPath r ds) n)
        = .ok ((filesUnder c).map fun q => (pathOfNames ([n] ++ q.1), q.2)) := by
      rw [addToArchive, hlkj]
      show addNode (segsToPath r ds) (goJoin (segsToPath r ds) n) c = _
      rw [hjoin]
      exact hchild
    rw [archiveNames, haa, ih hrest,
      show selectedFiles es (n :: rest)
        = namedFiles es n ++ selectedFiles es rest from rfl,
      namedFiles, hfind]
    rfl

end Serve

namespace Serve

/-- C1: for every POST archive request over a well-formed filesystem —
the resolved base directory opens and lists, its tree has real entry
names and readable nodes, and every selected name is a top-level entry —
the zip stream holds exactly: with no selection, every file transitively
under the base directory; with a selection, the named top-level entries
in order, each recursively included when a directory; every file stored
under its `/`-joined path relative to the base directory. -/
theorem post_archive_contents (app : App) (world : FSNode) (req : Request)
    (es : List (String × FSNode)) (hf : req.formFails = false)
    (hlk : lookup world (resolvePath app.dir req.urlPath)
      = some (.dir true true es))
    (hges : goodEntries es = true)
    (hnames : ∀ n ∈ req.files, simpleName n = true ∧ ∃ c, findEntry n es = some c) :
    (handlePost app.dir world req).2
      = .ok (if req.files = [] then relFiles (.dir true true es)
             else selectedFiles es req.files) := by
  rcases resolvePath_canonical app.dir req.urlPath with ⟨r, ds, hcanon, hcf⟩
  rw [resolvePath] at hcanon
  rw [resolvePath, hcanon] at hlk
  rw [show (handlePost app.dir world req).2
      = archive world (goJoin app.dir (goClean req.urlPath)) req.files from by
    simp [handlePost, hf], hcanon]
  by_cases hempty : req.files = []
  · rw [hempty]
    rw [show archive world (segsToPath r ds) []
        = addToArchive world (segsToPath r ds) (segsToPath r ds) from rfl]
    rw [addToArchive, hlk]
    show addNode (segsToPath r ds) (segsToPath r ds) (.dir true true es) = _
    have hgnode : goodNode (FSNode.dir true true es) = true := by
      simp [goodNode, hges]
    have h2 := addNode_spec r ds [] (.dir true true es) hcf
      (by intro n hn; cases hn) hgnode (fun _ => rfl)
    rw [show List.map String.data ([] : List String) = [] from rfl,
      List.append_nil] at h2
    exact h2
  · rw [show archive world (segsToPath r ds) req.files
        = archiveNames world (segsToPath r ds) req.files from by
      rw [archive, if_neg hempty]]
    rw [archiveNames_spec world r ds es hcf hlk hges req.files hnames,
      if_neg hempty]

/-- Witness for C1: the archive round-trip of the tests — `POST /` with
no selection zips both files of the test tree; selecting `asdf` zips
exactly that file. -/
theorem post_archive_contents_witness :
    (handlePost appDot.dir wTest ⟨"POST", "/", [], false, false⟩).2
      = .ok [("asdf", "content-A"), ("qwer", "content-B")] ∧
    (handlePost appDot.dir wTest ⟨"POST", "/", ["asdf"], false, false⟩).2
      = .ok [("asdf", "content-A")] := by
  constructor
  · exact post_archive_contents appDot wTest ⟨"POST", "/", [], false, false⟩
      [("asdf", .file true 9 mt0 "content-A"),
       ("qwer", .file true 9 mt0 "content-B")]
      rfl rfl rfl (by intro n hn; cases hn)
  · exact post_archive_contents appDot wTest ⟨"POST", "/", ["asdf"], false, false⟩
      [("asdf", .file true 9 mt0 "content-A"),
       ("qwer", .file true 9 mt0 "content-B")]
      rfl rfl rfl
      (by
        intro n hn
        rw [List.mem_singleton.mp hn]
        exact ⟨rfl, ⟨.file true 9 mt0 "content-A", rfl⟩⟩)

end Serve
